import Mathlib

/-!
Shallow embedding of `scripts/proto_to_sql.py`: the protobuf→SQL schema
translator (`ProtobufToSQLConverter`), the migration generator
(`SchemaManager.generate_migration`, `_create_table_statements`,
`_alter_table_statements`) and the per-file processing loop of `main`.

Python dicts are modelled as association lists in insertion order with
insert-or-overwrite semantics (`dictInsert`), matching CPython's ordered
dicts.  The iteration order of the Python *set* `new_fks - current_fks`
is not fixed by the language across processes (string hashing is seeded
per process), so the statement generator is parameterised by an
enumeration function `σ` which must produce a permutation of the
canonical enumeration of that set.
-/

namespace ProtoToSql

/-- Mirrors the Python dataclass `Column` (name, data_type, is_nullable,
is_primary_key with default False). -/
structure Column where
  name : String
  data_type : String
  is_nullable : Bool
  is_primary_key : Bool := false
deriving DecidableEq, Repr

/-- Mirrors the Python dataclass `Table` (name, columns, foreign_keys as
the formatted strings the code uses). -/
structure Table where
  name : String
  columns : List Column
  foreign_keys : List String
deriving DecidableEq, Repr

/-- Association list standing for a Python `dict` in insertion order. -/
abbrev Dict (α : Type) := List (String × α)

/-- `d[k] = v`: overwrite in place when the key exists (keeping its
position), append at the end otherwise — CPython dict assignment.  The
dicts of the program are built solely by this operation starting from
`[]`, so keys are never duplicated. -/
def dictInsert {α : Type} : Dict α → String → α → Dict α
  | [], k, v => [(k, v)]
  | (k1, v1) :: rest, k, v =>
    if k1 = k then (k, v) :: rest else (k1, v1) :: dictInsert rest k v

/-- `d.get(k)` / `k in d` for the association-list dict. -/
def dictGet {α : Type} (k : String) : Dict α → Option α
  | [] => none
  | (k', v) :: rest => if k' = k then some v else dictGet k rest

/-- `ProtobufToSQLConverter.TYPE_MAPPING`, the fixed proto-type →
PostgreSQL-type table. -/
def TYPE_MAPPING : List (String × String) :=
  [("double", "DOUBLE PRECISION"), ("float", "REAL"),
   ("int32", "INTEGER"), ("int64", "BIGINT"),
   ("uint32", "INTEGER"), ("uint64", "BIGINT"),
   ("sint32", "INTEGER"), ("sint64", "BIGINT"),
   ("fixed32", "INTEGER"), ("fixed64", "BIGINT"),
   ("sfixed32", "INTEGER"), ("sfixed64", "BIGINT"),
   ("bool", "BOOLEAN"), ("string", "TEXT"),
   ("bytes", "BYTEA"), ("timestamp", "TIMESTAMP")]

/-- `TYPE_MAPPING.get(field_type, 'TEXT')`. -/
def mapType (field_type : String) : String :=
  (dictGet field_type TYPE_MAPPING).getD "TEXT"

/-- The field modifier matched by the regex group
`(repeated|optional|required)?`. -/
inductive Modifier
  | repeated
  | optional
  | required
deriving DecidableEq, Repr

/-- One parsed field line `[modifier] type name = number` (the tag number
is matched but unused by the converter). -/
structure Field where
  modifier : Option Modifier
  field_type : String
  field_name : String
deriving DecidableEq, Repr

/-- One parsed `message Name { ... }` block with its field lines. -/
structure Message where
  name : String
  fields : List Field
deriving DecidableEq, Repr

/-- Python's `str.lower()` on identifier strings, modelled per character
(identifiers matched by `\w+` are ASCII, where the two agree). -/
def pyLower (s : String) : String := ⟨s.data.map Char.toLower⟩

/-- Table naming in `parse_proto_file`: the lower-cased file stem for the
message named `root` (case-insensitive), otherwise
`{base}_{messageName.lower()}`. -/
def tableNameFor (base : String) (messageName : String) : String :=
  if pyLower messageName = "root" then base
  else base ++ "_" ++ pyLower messageName

/-- The synthesized primary-key column prepended to every message table
and child table. -/
def idColumn : Column :=
  { name := "id", data_type := "SERIAL", is_nullable := false,
    is_primary_key := true }

/-- The `Column(...)` built for a non-repeated field (lines 234–238):
type-mapped with TEXT fallback, nullable unless `required`. -/
def scalarColumn (fd : Field) : Column :=
  { name := fd.field_name, data_type := mapType fd.field_type,
    is_nullable := fd.modifier ≠ some .required, is_primary_key := false }

/-- `_handle_repeated_field`: the child table for a repeated field, with
columns id / parent_id / value and one foreign key back to the parent. -/
def repeatedChildTable (array_table_name : String) (field_type : String)
    (parent_table : String) : Table :=
  { name := array_table_name
    columns :=
      [ { name := "id", data_type := "SERIAL", is_nullable := false,
          is_primary_key := true },
        { name := "parent_id", data_type := "BIGINT", is_nullable := false,
          is_primary_key := false },
        { name := "value", data_type := mapType field_type,
          is_nullable := false, is_primary_key := false } ]
    foreign_keys :=
      ["FOREIGN KEY (parent_id) REFERENCES " ++ parent_table ++ "(id)"] }

/-- One iteration of the field loop in `parse_proto_file`: a repeated
field inserts its child table into `self.tables` at once; any other field
appends a column to the message's column list. -/
def processField (table_name : String) (acc : List Column × Dict Table)
    (fd : Field) : List Column × Dict Table :=
  if fd.modifier = some .repeated then
    (acc.1,
     dictInsert acc.2 (table_name ++ "_" ++ fd.field_name)
       (repeatedChildTable (table_name ++ "_" ++ fd.field_name)
         fd.field_type table_name))
  else
    (acc.1 ++ [scalarColumn fd], acc.2)

/-- One iteration of the message loop in `parse_proto_file`: run the field
loop starting from `[idColumn]`, then insert the message table (child
tables are therefore inserted *before* their parent). -/
def processMessage (base : String) (tables : Dict Table) (m : Message) :
    Dict Table :=
  dictInsert
    (m.fields.foldl (processField (tableNameFor base m.name))
      ([idColumn], tables)).2
    (tableNameFor base m.name)
    { name := tableNameFor base m.name
      columns := (m.fields.foldl (processField (tableNameFor base m.name))
        ([idColumn], tables)).1
      foreign_keys := [] }

/-- `parse_proto_file`, starting from the structured message list the
regex produces; `base` is the lower-cased file stem. -/
def parse_proto_file (base : String) (msgs : List Message) : Dict Table :=
  msgs.foldl (processMessage base) []

/-- Python's default `str.strip()` whitespace set. -/
def isPySpace (c : Char) : Bool :=
  c == ' ' || c == '\t' || c == '\n' || c == '\r' || c == '\x0b' || c == '\x0c'

/-- Python `str.strip()`: drop leading and trailing whitespace. -/
def pyStrip (s : String) : String :=
  ⟨(s.data.dropWhile isPySpace).rdropWhile isPySpace⟩

/-- Decimal digit character, `0 ≤ k ≤ 9`. -/
def digitCh (k : Nat) : Char := Char.ofNat (48 + k)

/-- Fuel-driven decimal rendering; with fuel `n + 1` this is Python's
`str(n)` for a natural number. -/
def natCharsAux : Nat → Nat → List Char
  | 0, _ => []
  | fuel + 1, n =>
    if n < 10 then [digitCh n]
    else natCharsAux fuel (n / 10) ++ [digitCh (n % 10)]

/-- Python `str(n)` for the non-negative `len(statements)` counter. -/
def natStr (n : Nat) : String := ⟨natCharsAux (n + 1) n⟩

/-- `"NULL" if col.is_nullable else "NOT NULL"`. -/
def nullStr (is_nullable : Bool) : String :=
  if is_nullable then "NULL" else "NOT NULL"

/-- The column definition built in `_create_table_statements`:
`f"{col.name} {col.data_type} {nullable} {pk}".strip()`. -/
def columnDef (c : Column) : String :=
  pyStrip (c.name ++ " " ++ c.data_type ++ " " ++ nullStr c.is_nullable
    ++ " " ++ (if c.is_primary_key then "PRIMARY KEY" else ""))

/-- Python `sep.join(parts)`. -/
def pyJoin (sep : String) : List String → String
  | [] => ""
  | [x] => x
  | x :: rest => x ++ sep ++ pyJoin sep rest

/-- The CREATE TABLE statement of `_create_table_statements` (the
triple-quoted f-string, whitespace included, columns joined by `,`). -/
def createStmt (t : Table) : String :=
  "\n            CREATE TABLE " ++ t.name ++ " (\n                "
    ++ pyJoin "," (t.columns.map columnDef)
    ++ "\n            );\n            "

/-- The per-foreign-key statement of `_create_table_statements`, with the
constraint name `fk_{table.name}` (identical for every key of a table). -/
def fkCreateStmt (tableName fk : String) : String :=
  "ALTER TABLE " ++ tableName ++ " ADD CONSTRAINT fk_" ++ tableName
    ++ " " ++ fk ++ ";"

/-- `SchemaManager._create_table_statements`: one CREATE TABLE statement
followed by one `ADD CONSTRAINT` statement per foreign key. -/
def create_table_statements (t : Table) : List String :=
  createStmt t :: t.foreign_keys.map (fkCreateStmt t.name)

/-- `{col.name: col for col in columns}`: dict built by insertion, later
duplicates overwriting earlier ones. -/
def buildColDict (cols : List Column) : Dict Column :=
  cols.foldl (fun d c => dictInsert d c.name c) []

/-- One `ADD COLUMN` statement of `_alter_table_statements`. -/
def addColumnStmt (tableName cn : String) (c : Column) : String :=
  "ALTER TABLE " ++ tableName ++ " ADD COLUMN " ++ cn ++ " "
    ++ c.data_type ++ " " ++ nullStr c.is_nullable ++ ";"

/-- The `ADD COLUMN` loop of `_alter_table_statements`, iterating over the
new-columns dict in insertion order. -/
def addColumnStmts (tableName : String) (curD newD : Dict Column) :
    List String :=
  newD.filterMap (fun p =>
    if (dictGet p.1 curD).isNone then
      some (addColumnStmt tableName p.1 p.2)
    else none)

/-- One combined type-cast / nullability `ALTER COLUMN` statement of
`_alter_table_statements`. -/
def modifyColumnStmt (tableName cn : String) (c : Column) : String :=
  "ALTER TABLE " ++ tableName ++ " ALTER COLUMN " ++ cn
    ++ " TYPE " ++ c.data_type ++ " USING " ++ cn ++ "::"
    ++ c.data_type ++ ", ALTER COLUMN " ++ cn ++ " SET "
    ++ nullStr c.is_nullable ++ ";"

/-- The `ALTER COLUMN` loop of `_alter_table_statements`: columns present
on both sides whose type or nullability differs. -/
def modifyColumnStmts (tableName : String) (curD newD : Dict Column) :
    List String :=
  newD.filterMap (fun p =>
    (dictGet p.1 curD).bind (fun cur =>
      if p.2.data_type ≠ cur.data_type ∨ p.2.is_nullable ≠ cur.is_nullable
      then some (modifyColumnStmt tableName p.1 p.2)
      else none))

/-- First-occurrence enumeration of the distinct elements of a list: the
canonical enumeration of the Python set `set(l)`. -/
def dedupFirst : List String → List String
  | [] => []
  | x :: xs => x :: (dedupFirst xs).filter (fun y => y ≠ x)

/-- The elements of the Python set `set(new) - set(current)`, enumerated
in first-occurrence order of `new`. -/
def fkSetDiff (newFks curFks : List String) : List String :=
  (dedupFirst newFks).filter (fun fk => ¬ fk ∈ curFks)

/-- One `ADD CONSTRAINT` statement of `_alter_table_statements`, whose
generated name carries `len(statements)` at the moment it is appended. -/
def fkAlterStmt (tableName : String) (n : Nat) (fk : String) : String :=
  "ALTER TABLE " ++ tableName ++ " ADD CONSTRAINT fk_" ++ tableName
    ++ "_" ++ natStr n ++ " " ++ fk ++ ";"

/-- `SchemaManager._alter_table_statements`.  `σ` is the iteration order
CPython happens to use for the set `new_fks - current_fks`: an arbitrary
permutation of `fkSetDiff` (string-set iteration order is seeded per
process). -/
def alter_table_statements (σ : List String → List String)
    (current new : Table) : List String :=
  (σ (fkSetDiff new.foreign_keys current.foreign_keys)).foldl
    (fun stmts fk => stmts ++ [fkAlterStmt current.name stmts.length fk])
    (addColumnStmts current.name (buildColDict current.columns)
        (buildColDict new.columns)
      ++ modifyColumnStmts current.name (buildColDict current.columns)
        (buildColDict new.columns))

/-- `SchemaManager.generate_migration`: iterate the declared tables in
insertion order; CREATE for names absent from the current model, ALTER
against the same-named current table otherwise. -/
def generate_migration (σ : List String → List String)
    (new_tables current_tables : Dict Table) : List String :=
  new_tables.foldl (fun acc p =>
    acc ++ (match dictGet p.1 current_tables with
            | none => create_table_statements p.2
            | some cur => alter_table_statements σ cur p.2)) []

/-- Sequential insertion of a list of bindings (a `foldl` over
`dictInsert`), the shape both `parse_proto_file` and `buildColDict`
reduce to. -/
def insertAll {α : Type} (d : Dict α) (l : List (String × α)) : Dict α :=
  l.foldl (fun d p => dictInsert d p.1 p.2) d

/-- The column a field line contributes to its message table: `none` for
a repeated field (which contributes a child table instead). -/
def scalarOpt (fd : Field) : Option Column :=
  if fd.modifier = some .repeated then none else some (scalarColumn fd)

/-- The child-table bindings inserted by the field loop of one message,
in field order. -/
def childInsertions (tn : String) (fields : List Field) :
    List (String × Table) :=
  fields.filterMap (fun fd =>
    if fd.modifier = some .repeated then
      some (tn ++ "_" ++ fd.field_name,
        repeatedChildTable (tn ++ "_" ++ fd.field_name) fd.field_type tn)
    else none)

/-- The message table built at the end of one message iteration. -/
def messageTable (base : String) (m : Message) : Table :=
  { name := tableNameFor base m.name
    columns := idColumn :: m.fields.filterMap scalarOpt
    foreign_keys := [] }

/-- All dict insertions `parse_proto_file` performs, flattened in
execution order: for each message, its child tables (in field order)
followed by the message table itself. -/
def insertionsOf (base : String) : List Message → List (String × Table)
  | [] => []
  | m :: rest =>
    (childInsertions (tableNameFor base m.name) m.fields
      ++ [(tableNameFor base m.name, messageTable base m)])
      ++ insertionsOf base rest

/-- Keys of a binding list. -/
def keysOf {α : Type} (l : List (String × α)) : List String :=
  l.map Prod.fst

/-- The invariant of claim C8: the synthesized `id` column is first and
is the unique primary-key column. -/
def pkInvariant (t : Table) : Prop :=
  t.columns.head? = some idColumn ∧
  t.columns.filter (fun c => c.is_primary_key) = [idColumn]

/-! ### Absence of DROP statements (claim C2)

`"DROP"` contains the adjacent pair `'D','R'`.  No template literal of
the statement generators contains that pair or ends in `'D'` or starts
with `'R'` at a seam, so as long as the interpolated identifiers are free
of the pair themselves, no generated statement can contain `"DROP"` as a
substring. -/

/-- The pair `x, y` is not `'D', 'R'`. -/
def ROk (x y : Char) : Prop := ¬(x = 'D' ∧ y = 'R')

instance (x y : Char) : Decidable (ROk x y) :=
  inferInstanceAs (Decidable ¬(x = 'D' ∧ y = 'R'))

/-- No adjacent `'D','R'` pair in the character list. -/
def NoDR (l : List Char) : Prop := List.Chain' ROk l

instance decNoDR : (l : List Char) → Decidable (NoDR l)
  | [] => isTrue List.chain'_nil
  | [x] => isTrue (List.chain'_singleton x)
  | x :: y :: rest =>
    @decidable_of_iff _ (ROk x y ∧ NoDR (y :: rest))
      List.chain'_cons.symm
      (@instDecidableAnd _ _ _ (decNoDR (y :: rest)))

/-- No adjacent `'D','R'` pair in the string. -/
def SNoDR (s : String) : Prop := NoDR s.data

instance (s : String) : Decidable (SNoDR s) :=
  inferInstanceAs (Decidable (NoDR s.data))

/-- The identifiers and foreign-key strings of a table are free of the
adjacent pair `'D','R'` (true of every identifier not itself containing
`"DR"`; in particular of everything matched by the source's `\w+`
patterns unless the author embeds `DR`). -/
def TableDRFree (t : Table) : Prop :=
  SNoDR t.name ∧ (∀ c ∈ t.columns, SNoDR c.name ∧ SNoDR c.data_type) ∧
  ∀ fk ∈ t.foreign_keys, SNoDR fk

instance (t : Table) : Decidable (TableDRFree t) :=
  inferInstanceAs (Decidable (_ ∧ _ ∧ _))

/-! ### The per-file loop of `main` (claim C7)

`process_proto_file` catches any exception, logs it, rolls the
transaction back and *re-raises* (lines 401–404); the `for` loop in
`main` (lines 429–433) has no handler around the call, so the exception
propagates and the loop ends.  Each file's behaviour is modelled as
either a returned optional migration path or a raised error. -/

/-- The `for proto_file in proto_files` loop of `main`: collect returned
migration paths until the first file whose processing raises. -/
def mainLoop : List (Except String (Option String)) →
    Except String (List String)
  | [] => Except.ok []
  | Except.error e :: _ => Except.error e
  | Except.ok r :: rest =>
    match mainLoop rest with
    | Except.error e => Except.error e
    | Except.ok acc =>
      Except.ok (match r with
        | some f => f :: acc
        | none => acc)

/-- How many files of the list the loop actually processes (the failing
file counts as processed; the files after it are never reached). -/
def processedCount : List (Except String (Option String)) → Nat
  | [] => 0
  | Except.error _ :: _ => 1
  | Except.ok _ :: rest => 1 + processedCount rest


/-! ### Association-list dict lemmas -/

theorem dictGet_append {α : Type} (k : String) (a b : Dict α) :
    dictGet k (a ++ b) = (dictGet k a <|> dictGet k b) := by
  induction a with
  | nil => simp [dictGet]
  | cons p rest ih =>
    obtain ⟨k1, v1⟩ := p
    by_cases h : k1 = k <;> simp [dictGet, h, ih]

theorem dictGet_dictInsert {α : Type} (k k' : String) (v : α) (d : Dict α) :
    dictGet k (dictInsert d k' v) =
      (if k' = k then some v else dictGet k d) := by
  induction d with
  | nil =>
    by_cases hk : k' = k <;> simp [dictInsert, dictGet, hk]
  | cons p rest ih =>
    obtain ⟨k1, v1⟩ := p
    by_cases h1 : k1 = k'
    · subst h1
      by_cases hk : k1 = k <;> simp [dictInsert, dictGet, hk]
    · by_cases hk1 : k1 = k
      · subst hk1
        have hk : ¬ k' = k1 := fun he => h1 he.symm
        simp [dictInsert, dictGet, h1, hk]
      · simp [dictInsert, dictGet, h1, hk1, ih]


theorem insertAll_append {α : Type} (d : Dict α) (l1 l2 : List (String × α)) :
    insertAll d (l1 ++ l2) = insertAll (insertAll d l1) l2 :=
  List.foldl_append _ _ _ _

theorem dictGet_insertAll {α : Type} (k : String) (l : List (String × α)) :
    ∀ d, dictGet k (insertAll d l) =
      (dictGet k l.reverse <|> dictGet k d) := by
  induction l with
  | nil => intro d; simp [insertAll, dictGet]
  | cons p rest ih =>
    intro d
    obtain ⟨k1, v1⟩ := p
    have step : insertAll d ((k1, v1) :: rest) =
        insertAll (dictInsert d k1 v1) rest := rfl
    rw [step, ih, List.reverse_cons, dictGet_append, dictGet_dictInsert]
    by_cases hkk : k1 = k
    · cases h : dictGet k rest.reverse <;> simp [dictGet, hkk, h]
    · cases h : dictGet k rest.reverse <;> simp [dictGet, hkk, h]

theorem dictGet_of_nodup_mem {α : Type} {k : String} {v : α}
    {l : List (String × α)} (hnd : (l.map Prod.fst).Nodup)
    (hmem : (k, v) ∈ l) : dictGet k l = some v := by
  induction l with
  | nil => cases hmem
  | cons p rest ih =>
    obtain ⟨k1, v1⟩ := p
    simp only [List.map_cons, List.nodup_cons] at hnd
    rcases List.mem_cons.mp hmem with h | h
    · injection h with hk hv
      subst hk; subst hv
      simp [dictGet]
    · have hk1 : k1 ≠ k := by
        intro he
        subst he
        exact hnd.1 (List.mem_map.mpr ⟨(k1, v), h, rfl⟩)
      simp only [dictGet, hk1, if_false]
      exact ih hnd.2 h

theorem mem_dictInsert {α : Type} {p : String × α} {k : String} {v : α} :
    ∀ {d : Dict α}, p ∈ dictInsert d k v → p ∈ d ∨ p = (k, v) := by
  intro d
  induction d with
  | nil =>
    intro h
    simp only [dictInsert, List.mem_singleton] at h
    exact Or.inr h
  | cons q rest ih =>
    obtain ⟨k1, v1⟩ := q
    intro h
    by_cases hk : k1 = k
    · simp only [dictInsert, hk, if_true] at h
      rcases List.mem_cons.mp h with h2 | h2
      · exact Or.inr h2
      · exact Or.inl (List.mem_cons_of_mem _ h2)
    · simp only [dictInsert, hk, if_false] at h
      rcases List.mem_cons.mp h with h2 | h2
      · exact Or.inl (h2 ▸ List.mem_cons_self _ _)
      · rcases ih h2 with h3 | h3
        · exact Or.inl (List.mem_cons_of_mem _ h3)
        · exact Or.inr h3

theorem mem_insertAll {α : Type} {p : String × α}
    {l : List (String × α)} :
    ∀ {d : Dict α}, p ∈ insertAll d l → p ∈ d ∨ p ∈ l := by
  induction l with
  | nil => intro d h; exact Or.inl h
  | cons q rest ih =>
    intro d h
    have step : insertAll d (q :: rest) =
        insertAll (dictInsert d q.1 q.2) rest := rfl
    rw [step] at h
    rcases ih h with h2 | h2
    · rcases mem_dictInsert h2 with h3 | h3
      · exact Or.inl h3
      · exact Or.inr (by rw [h3]; exact List.mem_cons_self _ _)
    · exact Or.inr (List.mem_cons_of_mem _ h2)

/-! ### Factorization of `parse_proto_file` into a flat insertion list -/


theorem foldl_processField (tn : String) (fields : List Field) :
    ∀ (cols : List Column) (d : Dict Table),
      fields.foldl (processField tn) (cols, d) =
        (cols ++ fields.filterMap scalarOpt,
         insertAll d (childInsertions tn fields)) := by
  induction fields with
  | nil => intro cols d; simp [insertAll, childInsertions]
  | cons fd rest ih =>
    intro cols d
    by_cases h : fd.modifier = some .repeated
    · simp only [List.foldl_cons, processField, h, if_true]
      rw [ih]
      simp [childInsertions, scalarOpt, h, insertAll]
    · simp only [List.foldl_cons, processField, h, if_false]
      rw [ih]
      simp [childInsertions, scalarOpt, h, insertAll]

theorem processMessage_eq (base : String) (d : Dict Table) (m : Message) :
    processMessage base d m =
      insertAll d (childInsertions (tableNameFor base m.name) m.fields
        ++ [(tableNameFor base m.name, messageTable base m)]) := by
  unfold processMessage
  rw [foldl_processField]
  rw [insertAll_append]
  simp [insertAll, messageTable]

theorem parse_eq_insertAll (base : String) (msgs : List Message) :
    parse_proto_file base msgs = insertAll [] (insertionsOf base msgs) := by
  suffices h : ∀ d : Dict Table,
      msgs.foldl (processMessage base) d =
        insertAll d (insertionsOf base msgs) by
    exact h []
  induction msgs with
  | nil => intro d; simp [insertAll, insertionsOf]
  | cons m rest ih =>
    intro d
    simp only [List.foldl_cons, insertionsOf]
    rw [processMessage_eq, ih, insertAll_append, insertAll_append,
      insertAll_append]


theorem dictGet_parse_of_nodup {base : String} {msgs : List Message}
    {k : String} {t : Table}
    (hnd : (keysOf (insertionsOf base msgs)).Nodup)
    (hmem : (k, t) ∈ insertionsOf base msgs) :
    dictGet k (parse_proto_file base msgs) = some t := by
  rw [parse_eq_insertAll, dictGet_insertAll]
  have hnd2 : ((insertionsOf base msgs).reverse.map Prod.fst).Nodup := by
    rw [List.map_reverse]
    exact (List.nodup_reverse).mpr hnd
  rw [dictGet_of_nodup_mem hnd2 (List.mem_reverse.mpr hmem)]
  rfl

theorem mem_insertionsOf {base : String} {msgs : List Message} {m : Message}
    (hm : m ∈ msgs) {x : String × Table}
    (hx : x ∈ childInsertions (tableNameFor base m.name) m.fields
        ++ [(tableNameFor base m.name, messageTable base m)]) :
    x ∈ insertionsOf base msgs := by
  induction msgs with
  | nil => cases hm
  | cons m0 rest ih =>
    simp only [insertionsOf]
    rcases List.mem_cons.mp hm with h | h
    · subst h
      exact List.mem_append_left _ hx
    · exact List.mem_append_right _ (ih h)


theorem pk_of_insertionsOf {base : String} {msgs : List Message} :
    ∀ x ∈ insertionsOf base msgs, pkInvariant x.2 := by
  induction msgs with
  | nil => intro x hx; cases hx
  | cons m rest ih =>
    intro x hx
    simp only [insertionsOf] at hx
    rcases List.mem_append.mp hx with h | h
    · rcases List.mem_append.mp h with h2 | h2
      · rcases List.mem_filterMap.mp h2 with ⟨fd, _, hfd⟩
        by_cases hrep : fd.modifier = some .repeated
        · rw [if_pos hrep] at hfd
          rw [(Option.some.inj hfd).symm]
          exact ⟨rfl, rfl⟩
        · rw [if_neg hrep] at hfd
          cases hfd
      · have hx2 : x = (tableNameFor base m.name, messageTable base m) := by
          simpa using h2
        rw [hx2]
        refine ⟨rfl, ?_⟩
        show (idColumn :: m.fields.filterMap scalarOpt).filter
          (fun c => c.is_primary_key) = [idColumn]
        rw [List.filter_cons_of_pos (by rfl)]
        have hnil : (m.fields.filterMap scalarOpt).filter
            (fun c => c.is_primary_key) = [] := by
          apply List.filter_eq_nil_iff.mpr
          intro c hc
          rcases List.mem_filterMap.mp hc with ⟨fd, _, hfd⟩
          by_cases hrep : fd.modifier = some .repeated
          · simp [scalarOpt, hrep] at hfd
          · simp only [scalarOpt, hrep, if_false] at hfd
            rw [← Option.some.inj hfd]
            simp [scalarColumn]
        rw [hnil]
    · exact ih x h


theorem snodr_append_left {lit rest : String} (hl : SNoDR lit)
    (hr : SNoDR rest) (hd : ∀ x ∈ lit.data.getLast?, x ≠ 'D') :
    SNoDR (lit ++ rest) := by
  show NoDR (lit ++ rest).data
  rw [String.data_append]
  exact List.Chain'.append hl hr
    (fun x hx y _ hc => hd x hx hc.1)

theorem snodr_append_right {nm rest : String} (hn : SNoDR nm)
    (hr : SNoDR rest) (hh : ∀ y ∈ rest.data.head?, y ≠ 'R') :
    SNoDR (nm ++ rest) := by
  show NoDR (nm ++ rest).data
  rw [String.data_append]
  exact List.Chain'.append hn hr
    (fun x _ y hy hc => hh y hy hc.2)

theorem headNotR_append {a b : String} (ha : a.data ≠ [])
    (h : ∀ y ∈ a.data.head?, y ≠ 'R') :
    ∀ y ∈ (a ++ b).data.head?, y ≠ 'R' := by
  intro y hy
  rw [String.data_append, List.head?_append] at hy
  cases hh : a.data.head? with
  | none => exact absurd (List.head?_eq_none_iff.mp hh) ha
  | some c =>
    rw [hh] at hy
    simp only [Option.or_some, Option.mem_def, Option.some.injEq] at hy
    exact hy ▸ h c (by rw [hh]; rfl)

theorem noDR_of_no_R {l : List Char} (h : 'R' ∉ l) : NoDR l := by
  induction l with
  | nil => exact List.chain'_nil
  | cons a rest ih =>
    apply List.chain'_cons'.mpr
    refine ⟨?_, ih (fun hm => h (List.mem_cons_of_mem _ hm))⟩
    intro y hy hc
    apply h
    rw [← hc.2]
    exact List.mem_cons_of_mem _ (List.mem_of_mem_head? hy)

theorem natCharsAux_digits (fuel n : Nat) :
    ∀ c ∈ natCharsAux fuel n, ∃ k, k < 10 ∧ c = digitCh k := by
  induction fuel generalizing n with
  | zero => intro c hc; cases hc
  | succ fuel ih =>
    intro c hc
    by_cases h : n < 10
    · simp only [natCharsAux, h, if_true, List.mem_singleton] at hc
      exact ⟨n, h, hc⟩
    · simp only [natCharsAux, h, if_false, List.mem_append] at hc
      rcases hc with hc | hc
      · exact ih (n / 10) c hc
      · refine ⟨n % 10, Nat.mod_lt _ (by omega), ?_⟩
        simpa using hc

theorem snodr_natStr (n : Nat) : SNoDR (natStr n) := by
  apply noDR_of_no_R
  intro hmem
  rcases natCharsAux_digits (n + 1) n 'R' hmem with ⟨k, hk, he⟩
  have hall : ∀ k2 < 10, digitCh k2 ≠ 'R' := by decide
  exact hall k hk he.symm

theorem snodr_pyStrip {s : String} (h : SNoDR s) : SNoDR (pyStrip s) := by
  show NoDR ((s.data.dropWhile isPySpace).rdropWhile isPySpace)
  apply h.infix
  have hpre := List.rdropWhile_prefix isPySpace (s.data.dropWhile isPySpace)
  exact hpre.isInfix.trans (s.data.dropWhile_suffix _).isInfix

theorem snodr_columnDef {c : Column} (h1 : SNoDR c.name)
    (h2 : SNoDR c.data_type) : SNoDR (columnDef c) := by
  unfold columnDef
  apply snodr_pyStrip
  simp only [String.append_assoc]
  apply snodr_append_right h1 ?_ (headNotR_append (by decide) (by decide))
  apply snodr_append_left (by decide) ?_ (by decide)
  apply snodr_append_right h2 ?_ (headNotR_append (by decide) (by decide))
  apply snodr_append_left (by decide) ?_ (by decide)
  cases c.is_nullable <;> cases c.is_primary_key <;> decide

theorem snodr_pyJoin {ds : List String} (h : ∀ d ∈ ds, SNoDR d) :
    SNoDR (pyJoin "," ds) := by
  induction ds with
  | nil => decide
  | cons x rest ih =>
    cases rest with
    | nil => exact h x (List.mem_singleton.mpr rfl)
    | cons y r =>
      show SNoDR (x ++ "," ++ pyJoin "," (y :: r))
      simp only [String.append_assoc]
      apply snodr_append_right (h x (List.mem_cons_self _ _)) ?_
        (headNotR_append (by decide) (by decide))
      apply snodr_append_left (by decide) ?_ (by decide)
      exact ih (fun d hd => h d (List.mem_cons_of_mem _ hd))

theorem snodr_createStmt {t : Table} (hn : SNoDR t.name)
    (hcols : ∀ c ∈ t.columns, SNoDR c.name ∧ SNoDR c.data_type) :
    SNoDR (createStmt t) := by
  unfold createStmt
  simp only [String.append_assoc]
  apply snodr_append_left (by decide) ?_ (by decide)
  apply snodr_append_right hn ?_ (headNotR_append (by decide) (by decide))
  apply snodr_append_left (by decide) ?_ (by decide)
  have hjoin : SNoDR (pyJoin "," (t.columns.map columnDef)) := by
    apply snodr_pyJoin
    intro d hd
    rcases List.mem_map.mp hd with ⟨c, hc, hdc⟩
    rw [← hdc]
    exact snodr_columnDef (hcols c hc).1 (hcols c hc).2
  exact snodr_append_right hjoin (by decide) (by decide)

theorem snodr_fkCreateStmt {tn fk : String} (hn : SNoDR tn)
    (hf : SNoDR fk) : SNoDR (fkCreateStmt tn fk) := by
  unfold fkCreateStmt
  simp only [String.append_assoc]
  apply snodr_append_left (by decide) ?_ (by decide)
  apply snodr_append_right hn ?_ (headNotR_append (by decide) (by decide))
  apply snodr_append_left (by decide) ?_ (by decide)
  apply snodr_append_right hn ?_ (headNotR_append (by decide) (by decide))
  apply snodr_append_left (by decide) ?_ (by decide)
  exact snodr_append_right hf (by decide) (by decide)

theorem snodr_addColumnStmt {tn cn : String} {c : Column}
    (htn : SNoDR tn) (hcn : SNoDR cn) (hdt : SNoDR c.data_type) :
    SNoDR (addColumnStmt tn cn c) := by
  unfold addColumnStmt
  simp only [String.append_assoc]
  apply snodr_append_left (by decide) ?_ (by decide)
  apply snodr_append_right htn ?_ (headNotR_append (by decide) (by decide))
  apply snodr_append_left (by decide) ?_ (by decide)
  apply snodr_append_right hcn ?_ (headNotR_append (by decide) (by decide))
  apply snodr_append_left (by decide) ?_ (by decide)
  apply snodr_append_right hdt ?_ (headNotR_append (by decide) (by decide))
  apply snodr_append_left (by decide) ?_ (by decide)
  cases c.is_nullable <;> decide

theorem snodr_modifyColumnStmt {tn cn : String} {c : Column}
    (htn : SNoDR tn) (hcn : SNoDR cn) (hdt : SNoDR c.data_type) :
    SNoDR (modifyColumnStmt tn cn c) := by
  unfold modifyColumnStmt
  simp only [String.append_assoc]
  apply snodr_append_left (by decide) ?_ (by decide)
  apply snodr_append_right htn ?_ (headNotR_append (by decide) (by decide))
  apply snodr_append_left (by decide) ?_ (by decide)
  apply snodr_append_right hcn ?_ (headNotR_append (by decide) (by decide))
  apply snodr_append_left (by decide) ?_ (by decide)
  apply snodr_append_right hdt ?_ (headNotR_append (by decide) (by decide))
  apply snodr_append_left (by decide) ?_ (by decide)
  apply snodr_append_right hcn ?_ (headNotR_append (by decide) (by decide))
  apply snodr_append_left (by decide) ?_ (by decide)
  apply snodr_append_right hdt ?_ (headNotR_append (by decide) (by decide))
  apply snodr_append_left (by decide) ?_ (by decide)
  apply snodr_append_right hcn ?_ (headNotR_append (by decide) (by decide))
  apply snodr_append_left (by decide) ?_ (by decide)
  cases c.is_nullable <;> decide

theorem snodr_fkAlterStmt {tn fk : String} (n : Nat) (htn : SNoDR tn)
    (hf : SNoDR fk) : SNoDR (fkAlterStmt tn n fk) := by
  unfold fkAlterStmt
  simp only [String.append_assoc]
  apply snodr_append_left (by decide) ?_ (by decide)
  apply snodr_append_right htn ?_ (headNotR_append (by decide) (by decide))
  apply snodr_append_left (by decide) ?_ (by decide)
  apply snodr_append_right htn ?_ (headNotR_append (by decide) (by decide))
  apply snodr_append_left (by decide) ?_ (by decide)
  apply snodr_append_right (snodr_natStr n) ?_
    (headNotR_append (by decide) (by decide))
  apply snodr_append_left (by decide) ?_ (by decide)
  exact snodr_append_right hf (by decide) (by decide)

theorem mem_dedupFirst {x : String} : ∀ {l : List String},
    x ∈ dedupFirst l → x ∈ l := by
  intro l
  induction l with
  | nil => intro h; cases h
  | cons a rest ih =>
    intro h
    rcases List.mem_cons.mp h with h2 | h2
    · exact h2 ▸ List.mem_cons_self _ _
    · exact List.mem_cons_of_mem _ (ih (List.mem_filter.mp h2).1)

theorem mem_fkSetDiff {x : String} {newFks curFks : List String}
    (h : x ∈ fkSetDiff newFks curFks) : x ∈ newFks :=
  mem_dedupFirst (List.mem_filter.mp h).1

theorem dictGet_mem {α : Type} {k : String} {v : α} :
    ∀ {d : Dict α}, dictGet k d = some v → (k, v) ∈ d := by
  intro d
  induction d with
  | nil => intro h; cases h
  | cons p rest ih =>
    obtain ⟨k1, v1⟩ := p
    intro h
    by_cases hk : k1 = k
    · rw [show dictGet k ((k1, v1) :: rest) = some v1 by
        simp [dictGet, hk]] at h
      rw [hk, Option.some.inj h]
      exact List.mem_cons_self _ _
    · rw [show dictGet k ((k1, v1) :: rest) = dictGet k rest by
        simp [dictGet, hk]] at h
      exact List.mem_cons_of_mem _ (ih h)

theorem mem_buildColDict {p : String × Column} {cols : List Column}
    (h : p ∈ buildColDict cols) : ∃ c ∈ cols, p = (c.name, c) := by
  have heq : buildColDict cols =
      insertAll [] (cols.map (fun c => (c.name, c))) := by
    unfold buildColDict insertAll
    rw [List.foldl_map]
  rw [heq] at h
  rcases mem_insertAll h with h2 | h2
  · cases h2
  · rcases List.mem_map.mp h2 with ⟨c, hc, he⟩
    exact ⟨c, hc, he.symm⟩

theorem mem_fkFoldl {g : Nat → String → String} {L : List String} :
    ∀ {init : List String} {s : String},
      s ∈ L.foldl (fun st fk => st ++ [g st.length fk]) init →
      s ∈ init ∨ ∃ n fk, fk ∈ L ∧ s = g n fk := by
  induction L with
  | nil => intro init s h; exact Or.inl h
  | cons f r ih =>
    intro init s h
    simp only [List.foldl_cons] at h
    rcases ih h with h2 | h2
    · rcases List.mem_append.mp h2 with h3 | h3
      · exact Or.inl h3
      · refine Or.inr ⟨init.length, f, List.mem_cons_self _ _, ?_⟩
        simpa using h3
    · rcases h2 with ⟨n, fk, hfk, he⟩
      exact Or.inr ⟨n, fk, List.mem_cons_of_mem _ hfk, he⟩

theorem mem_foldl_append {β γ : Type} {f : β → List γ} {l : List β} :
    ∀ {init : List γ} {s : γ},
      s ∈ l.foldl (fun acc p => acc ++ f p) init →
      s ∈ init ∨ ∃ p ∈ l, s ∈ f p := by
  induction l with
  | nil => intro init s h; exact Or.inl h
  | cons q r ih =>
    intro init s h
    simp only [List.foldl_cons] at h
    rcases ih h with h2 | h2
    · rcases List.mem_append.mp h2 with h3 | h3
      · exact Or.inl h3
      · exact Or.inr ⟨q, List.mem_cons_self _ _, h3⟩
    · rcases h2 with ⟨p, hp, hs⟩
      exact Or.inr ⟨p, List.mem_cons_of_mem _ hp, hs⟩

theorem mem_alter_table_statements {σ : List String → List String}
    {cur new : Table} {s : String}
    (hs : s ∈ alter_table_statements σ cur new) :
    s ∈ addColumnStmts cur.name (buildColDict cur.columns)
        (buildColDict new.columns) ∨
    s ∈ modifyColumnStmts cur.name (buildColDict cur.columns)
        (buildColDict new.columns) ∨
    ∃ n fk, fk ∈ σ (fkSetDiff new.foreign_keys cur.foreign_keys) ∧
      s = fkAlterStmt cur.name n fk := by
  unfold alter_table_statements at hs
  rcases mem_fkFoldl hs with h | h
  · rcases List.mem_append.mp h with h2 | h2
    · exact Or.inl h2
    · exact Or.inr (Or.inl h2)
  · exact Or.inr (Or.inr h)

theorem mem_generate_migration {σ : List String → List String}
    {new cur : Dict Table} {s : String}
    (hs : s ∈ generate_migration σ new cur) :
    ∃ p ∈ new,
      (dictGet p.1 cur = none ∧ s ∈ create_table_statements p.2) ∨
      ∃ c, dictGet p.1 cur = some c ∧
        s ∈ alter_table_statements σ c p.2 := by
  unfold generate_migration at hs
  rcases mem_foldl_append hs with h | h
  · cases h
  · rcases h with ⟨p, hp, hmem⟩
    refine ⟨p, hp, ?_⟩
    cases hget : dictGet p.1 cur with
    | none =>
      rw [hget] at hmem
      exact Or.inl ⟨rfl, hmem⟩
    | some c =>
      rw [hget] at hmem
      exact Or.inr ⟨c, rfl, hmem⟩

theorem noDR_not_infix_DR {l rest : List Char} (h : NoDR l) :
    ¬ ('D' :: 'R' :: rest) <:+: l := by
  intro hinf
  have hchain := List.Chain'.infix h hinf
  exact (List.chain'_cons.mp hchain).1 ⟨rfl, rfl⟩

theorem no_drop_of_snodr {s : String} (h : SNoDR s) :
    ¬ List.IsInfix "DROP TABLE".data s.data ∧
    ¬ List.IsInfix "DROP COLUMN".data s.data ∧
    ¬ List.IsInfix "DROP CONSTRAINT".data s.data := by
  refine ⟨?_, ?_, ?_⟩
  · rw [show ("DROP TABLE".data) = 'D' :: 'R' :: "OP TABLE".data from rfl]
    exact noDR_not_infix_DR h
  · rw [show ("DROP COLUMN".data) = 'D' :: 'R' :: "OP COLUMN".data from rfl]
    exact noDR_not_infix_DR h
  · rw [show ("DROP CONSTRAINT".data) =
      'D' :: 'R' :: "OP CONSTRAINT".data from rfl]
    exact noDR_not_infix_DR h


theorem snodr_generate_migration {σ : List String → List String}
    (hσ : ∀ l, List.Perm (σ l) l) {new cur : Dict Table}
    (hnew : ∀ p ∈ new, TableDRFree p.2)
    (hcur : ∀ p ∈ cur, TableDRFree p.2) :
    ∀ s ∈ generate_migration σ new cur, SNoDR s := by
  intro s hs
  rcases mem_generate_migration hs with ⟨p, hp, hcase⟩
  have htf := hnew p hp
  rcases hcase with ⟨_, hsc⟩ | ⟨c, hc, hsa⟩
  · rcases List.mem_cons.mp hsc with h2 | h2
    · exact h2 ▸ snodr_createStmt htf.1 htf.2.1
    · rcases List.mem_map.mp h2 with ⟨fk, hfk, he⟩
      exact he ▸ snodr_fkCreateStmt htf.1 (htf.2.2 fk hfk)
  · have htc := hcur (p.1, c) (dictGet_mem hc)
    rcases mem_alter_table_statements hsa with h2 | h2 | h2
    · rcases List.mem_filterMap.mp h2 with ⟨q, hq, hqe⟩
      rcases mem_buildColDict hq with ⟨col, hcol, hqc⟩
      by_cases hnone : (dictGet q.1 (buildColDict c.columns)).isNone
      · rw [if_pos hnone] at hqe
        rw [← Option.some.inj hqe, hqc]
        exact snodr_addColumnStmt htc.1 (htf.2.1 col hcol).1
          (htf.2.1 col hcol).2
      · rw [if_neg hnone] at hqe
        cases hqe
    · rcases List.mem_filterMap.mp h2 with ⟨q, hq, hqe⟩
      rcases mem_buildColDict hq with ⟨col, hcol, hqc⟩
      cases hget : dictGet q.1 (buildColDict c.columns) with
      | none =>
        rw [hget] at hqe
        simp at hqe
      | some curc =>
        rw [hget] at hqe
        simp only [Option.some_bind] at hqe
        by_cases hdiff : q.2.data_type ≠ curc.data_type ∨
            q.2.is_nullable ≠ curc.is_nullable
        · rw [if_pos hdiff] at hqe
          rw [← Option.some.inj hqe, hqc]
          exact snodr_modifyColumnStmt htc.1 (htf.2.1 col hcol).1
            (htf.2.1 col hcol).2
        · rw [if_neg hdiff] at hqe
          cases hqe
    · rcases h2 with ⟨n, fk, hfk, he⟩
      have hfk2 : fk ∈ p.2.foreign_keys :=
        mem_fkSetDiff ((hσ _).mem_iff.mp hfk)
      exact he ▸ snodr_fkAlterStmt n htc.1 (htf.2.2 fk hfk2)

/-! ### Reconciler algebra: no-op on equal tables, frame, determinism -/

theorem foldl_append_congr {β γ : Type} {f g : β → List γ} {l : List β}
    (h : ∀ p ∈ l, f p = g p) :
    ∀ init : List γ, l.foldl (fun acc p => acc ++ f p) init =
      l.foldl (fun acc p => acc ++ g p) init := by
  induction l with
  | nil => intro init; rfl
  | cons q r ih =>
    intro init
    simp only [List.foldl_cons]
    rw [h q (List.mem_cons_self _ _)]
    exact ih (fun p hp => h p (List.mem_cons_of_mem _ hp)) _

theorem dictGet_ne_none_of_mem {α : Type} {k : String} {v : α} :
    ∀ {d : Dict α}, (k, v) ∈ d → dictGet k d ≠ none := by
  intro d
  induction d with
  | nil => intro h; cases h
  | cons p rest ih =>
    obtain ⟨k1, v1⟩ := p
    intro h
    by_cases hk : k1 = k
    · simp [dictGet, hk]
    · rcases List.mem_cons.mp h with h2 | h2
      · injection h2 with h3 _
        exact absurd h3.symm hk
      · simpa [dictGet, hk] using ih h2

theorem keys_nodup_dictInsert {α : Type} {k : String} {v : α} :
    ∀ {d : Dict α}, (d.map Prod.fst).Nodup →
      ((dictInsert d k v).map Prod.fst).Nodup := by
  intro d
  induction d with
  | nil => intro _; simp [dictInsert]
  | cons p rest ih =>
    obtain ⟨k1, v1⟩ := p
    intro h
    simp only [List.map_cons, List.nodup_cons] at h
    by_cases hk : k1 = k
    · subst hk
      have hstep : dictInsert ((k1, v1) :: rest) k1 v = (k1, v) :: rest := by
        simp [dictInsert]
      rw [hstep]
      simpa using h
    · simp only [dictInsert, if_neg hk, List.map_cons, List.nodup_cons]
      refine ⟨?_, ih h.2⟩
      intro hmem
      rcases List.mem_map.mp hmem with ⟨q, hq, hqe⟩
      rcases mem_dictInsert hq with h3 | h3
      · exact h.1 (hqe ▸ List.mem_map.mpr ⟨q, h3, rfl⟩)
      · rw [h3] at hqe
        exact hk hqe.symm

theorem keys_nodup_insertAll {α : Type} {l : List (String × α)} :
    ∀ {d : Dict α}, (d.map Prod.fst).Nodup →
      ((insertAll d l).map Prod.fst).Nodup := by
  induction l with
  | nil => intro d h; exact h
  | cons q rest ih =>
    intro d h
    have step : insertAll d (q :: rest) =
        insertAll (dictInsert d q.1 q.2) rest := rfl
    rw [step]
    exact ih (keys_nodup_dictInsert h)

theorem keys_nodup_buildColDict (cols : List Column) :
    ((buildColDict cols).map Prod.fst).Nodup := by
  have heq : buildColDict cols =
      insertAll [] (cols.map (fun c => (c.name, c))) := by
    unfold buildColDict insertAll
    rw [List.foldl_map]
  rw [heq]
  exact keys_nodup_insertAll List.nodup_nil

/-- The inner order-fixing fact for determinism: a permutation function
is the identity on lists of length at most one. -/
theorem perm_fix_of_short {σ : List String → List String}
    (hσ : ∀ l, List.Perm (σ l) l) {l : List String} (hl : l.length ≤ 1) :
    σ l = l := by
  cases l with
  | nil => exact (hσ []).eq_nil
  | cons x rest =>
    cases rest with
    | nil => exact List.perm_singleton.mp (hσ [x])
    | cons y r => simp at hl

theorem alter_eq_nil_of_eq {σ : List String → List String}
    (hσ : ∀ l, List.Perm (σ l) l) {c t : Table}
    (hcols : t.columns = c.columns)
    (hfks : ∀ fk, fk ∈ t.foreign_keys ↔ fk ∈ c.foreign_keys) :
    alter_table_statements σ c t = [] := by
  unfold alter_table_statements
  have hD : buildColDict t.columns = buildColDict c.columns := by rw [hcols]
  have hadds : addColumnStmts c.name (buildColDict c.columns)
      (buildColDict t.columns) = [] := by
    apply List.filterMap_eq_nil_iff.mpr
    intro p hp
    rw [hD] at hp
    have hne : dictGet p.1 (buildColDict c.columns) ≠ none :=
      dictGet_ne_none_of_mem (v := p.2) hp
    rw [if_neg]
    simp only [Option.isNone_iff_eq_none]
    exact hne
  have hmods : modifyColumnStmts c.name (buildColDict c.columns)
      (buildColDict t.columns) = [] := by
    apply List.filterMap_eq_nil_iff.mpr
    intro p hp
    rw [hD] at hp
    have hget : dictGet p.1 (buildColDict c.columns) = some p.2 := by
      apply dictGet_of_nodup_mem (keys_nodup_buildColDict c.columns)
      exact hp
    rw [hget, Option.some_bind, if_neg]
    push_neg
    exact ⟨rfl, rfl⟩
  have hdiffnil : fkSetDiff t.foreign_keys c.foreign_keys = [] := by
    unfold fkSetDiff
    apply List.filter_eq_nil_iff.mpr
    intro a ha
    simp only [decide_not, Bool.not_eq_true', decide_eq_false_iff_not,
      Decidable.not_not]
    exact (hfks a).mp (mem_dedupFirst ha)
  rw [hdiffnil, perm_fix_of_short hσ (by simp), hadds, hmods]
  rfl


end ProtoToSql

open ProtoToSql in
/-- **C2.** For every declared and current model whose identifiers are
free of the character pair `"DR"` (as all `\w+`-derived identifiers and
the generator's own templates are), no statement produced by
`generate_migration` contains `DROP TABLE`, `DROP COLUMN` or
`DROP CONSTRAINT` as a substring, for any set-iteration order `σ`: the
reconciler never emits a removal. -/
theorem claim_C2_no_drop_statements (σ : List String → List String)
    (hσ : ∀ l, List.Perm (σ l) l) (new cur : Dict Table)
    (hnew : ∀ p ∈ new, TableDRFree p.2)
    (hcur : ∀ p ∈ cur, TableDRFree p.2) :
    ∀ s ∈ generate_migration σ new cur,
      ¬ List.IsInfix "DROP TABLE".data s.data ∧
      ¬ List.IsInfix "DROP COLUMN".data s.data ∧
      ¬ List.IsInfix "DROP CONSTRAINT".data s.data := by
  intro s hs
  exact no_drop_of_snodr (snodr_generate_migration hσ hnew hcur s hs)

open ProtoToSql in
/-- Witness for C2: the `widget` example against an empty current model,
with the identity iteration order. -/
theorem claim_C2_no_drop_statements_witness :
    (∀ p ∈ parse_proto_file "widget"
        [⟨"Root", [⟨some .repeated, "string", "tags"⟩]⟩],
      TableDRFree p.2) ∧
    (∀ s ∈ generate_migration (fun l => l)
        (parse_proto_file "widget"
          [⟨"Root", [⟨some .repeated, "string", "tags"⟩]⟩]) [],
      ¬ List.IsInfix "DROP TABLE".data s.data ∧
      ¬ List.IsInfix "DROP COLUMN".data s.data ∧
      ¬ List.IsInfix "DROP CONSTRAINT".data s.data) := by
  refine ⟨by decide, ?_⟩
  exact claim_C2_no_drop_statements (fun l => l)
    (fun l => List.Perm.refl l)
    (parse_proto_file "widget"
      [⟨"Root", [⟨some .repeated, "string", "tags"⟩]⟩]) []
    (by decide) (by decide)

open ProtoToSql in
/-- **C1.** For every parsed source and every `repeated` field `f` of
element type `t` in a message whose table is named `P` (under
collision-free naming, with `f` occurring once in the message and not
shadowing the synthesized `id`), translation adds no column named `f` to
table `P` and instead produces a child table `P_f` with exactly the three
columns id (SERIAL, not null, primary key), parent_id (BIGINT, not
null), value (the type mapping of `t`, not null), in that order, and
exactly one foreign key from `parent_id` to `P(id)`. -/
theorem claim_C1_repeated_field_child_table
    (base : String) (msgs : List Message) (m : Message) (fd : Field)
    (hm : m ∈ msgs) (hfd : fd ∈ m.fields)
    (hrep : fd.modifier = some .repeated)
    (hnd : (keysOf (insertionsOf base msgs)).Nodup)
    (huniq : ∀ fd2 ∈ m.fields, fd2.field_name = fd.field_name → fd2 = fd)
    (hid : fd.field_name ≠ "id") :
    dictGet (tableNameFor base m.name ++ "_" ++ fd.field_name)
        (parse_proto_file base msgs) =
      some { name := tableNameFor base m.name ++ "_" ++ fd.field_name
             columns := [⟨"id", "SERIAL", false, true⟩,
                         ⟨"parent_id", "BIGINT", false, false⟩,
                         ⟨"value", mapType fd.field_type, false, false⟩]
             foreign_keys := ["FOREIGN KEY (parent_id) REFERENCES "
               ++ tableNameFor base m.name ++ "(id)"] } ∧
    dictGet (tableNameFor base m.name) (parse_proto_file base msgs) =
      some (messageTable base m) ∧
    ∀ c ∈ (messageTable base m).columns, c.name ≠ fd.field_name := by
  refine ⟨?_, ?_, ?_⟩
  · apply dictGet_parse_of_nodup hnd
    apply mem_insertionsOf hm
    apply List.mem_append_left
    apply List.mem_filterMap.mpr
    exact ⟨fd, hfd, by rw [if_pos hrep]; rfl⟩
  · apply dictGet_parse_of_nodup hnd
    apply mem_insertionsOf hm
    apply List.mem_append_right
    exact List.mem_singleton.mpr rfl
  · intro c hc
    rcases List.mem_cons.mp hc with h | h
    · rw [h]
      exact fun he => hid he.symm
    · rcases List.mem_filterMap.mp h with ⟨fd2, hfd2, hval⟩
      by_cases hrep2 : fd2.modifier = some .repeated
      · simp [scalarOpt, hrep2] at hval
      · simp only [scalarOpt, hrep2, if_false] at hval
        intro he
        rw [← Option.some.inj hval] at he
        have hname : fd2.field_name = fd.field_name := he
        have hfd2eq : fd2 = fd := huniq fd2 hfd2 hname
        rw [hfd2eq] at hrep2
        exact hrep2 hrep

open ProtoToSql in
/-- Witness for C1 at the spec's own example: source `widget` with a
root message carrying `repeated string tags`. -/
theorem claim_C1_repeated_field_child_table_witness :
    (⟨"Root", [⟨some .repeated, "string", "tags"⟩]⟩ : Message) ∈
      [(⟨"Root", [⟨some .repeated, "string", "tags"⟩]⟩ : Message)] ∧
    (keysOf (insertionsOf "widget"
      [⟨"Root", [⟨some .repeated, "string", "tags"⟩]⟩])).Nodup ∧
    dictGet ("widget" ++ "_" ++ "tags")
        (parse_proto_file "widget"
          [⟨"Root", [⟨some .repeated, "string", "tags"⟩]⟩]) =
      some { name := "widget" ++ "_" ++ "tags"
             columns := [⟨"id", "SERIAL", false, true⟩,
                         ⟨"parent_id", "BIGINT", false, false⟩,
                         ⟨"value", mapType "string", false, false⟩]
             foreign_keys := ["FOREIGN KEY (parent_id) REFERENCES "
               ++ "widget" ++ "(id)"] } := by
  refine ⟨by decide, by decide, ?_⟩
  have h := claim_C1_repeated_field_child_table "widget"
    [⟨"Root", [⟨some .repeated, "string", "tags"⟩]⟩]
    ⟨"Root", [⟨some .repeated, "string", "tags"⟩]⟩
    ⟨some .repeated, "string", "tags"⟩
    (by decide) (by decide) rfl (by decide) (by decide) (by decide)
  exact h.1

open ProtoToSql in
/-- **C8.** Every table produced by translation (message tables and
repeated-field child tables alike) has the synthesized `id` column —
SERIAL, not nullable, primary key — as its first column, and it is the
only primary-key column. -/
theorem claim_C8_synthesized_primary_key
    (base : String) (msgs : List Message) (n : String) (t : Table)
    (hmem : (n, t) ∈ parse_proto_file base msgs) :
    t.columns.head? = some ⟨"id", "SERIAL", false, true⟩ ∧
    t.columns.filter (fun c => c.is_primary_key) =
      [⟨"id", "SERIAL", false, true⟩] := by
  rw [parse_eq_insertAll] at hmem
  rcases mem_insertAll hmem with h | h
  · cases h
  · exact pk_of_insertionsOf (n, t) h

open ProtoToSql in
/-- Witness for C8 at the child table of the `widget` example. -/
theorem claim_C8_synthesized_primary_key_witness :
    (("widget_tags",
      repeatedChildTable "widget_tags" "string" "widget") ∈
        parse_proto_file "widget"
          [⟨"Root", [⟨some .repeated, "string", "tags"⟩]⟩]) ∧
    (repeatedChildTable "widget_tags" "string" "widget").columns.head? =
      some ⟨"id", "SERIAL", false, true⟩ := by
  refine ⟨by decide, ?_⟩
  exact (claim_C8_synthesized_primary_key "widget"
    [⟨"Root", [⟨some .repeated, "string", "tags"⟩]⟩]
    "widget_tags" (repeatedChildTable "widget_tags" "string" "widget")
    (by decide)).1

open ProtoToSql in
/-- **C9.** A field whose declared type is absent from `TYPE_MAPPING` is
translated with type TEXT — both as a scalar column and as the `value`
column of a repeated-field child table — and translation is total (it
never raises). -/
theorem claim_C9_unmapped_type_defaults_to_text
    (fd : Field) (a p : String)
    (h : dictGet fd.field_type TYPE_MAPPING = none) :
    (scalarColumn fd).data_type = "TEXT" ∧
    (repeatedChildTable a fd.field_type p).columns.map
      (fun c => c.data_type) = ["SERIAL", "BIGINT", "TEXT"] := by
  have hmap : mapType fd.field_type = "TEXT" := by
    unfold mapType
    rw [h]
    rfl
  constructor
  · show mapType fd.field_type = "TEXT"
    exact hmap
  · show ["SERIAL", "BIGINT", mapType fd.field_type] =
      ["SERIAL", "BIGINT", "TEXT"]
    rw [hmap]

open ProtoToSql in
/-- Witness for C9 at the unmapped type `decimal`. -/
theorem claim_C9_unmapped_type_defaults_to_text_witness :
    dictGet "decimal" TYPE_MAPPING = none ∧
    (scalarColumn ⟨none, "decimal", "price"⟩).data_type = "TEXT" := by
  refine ⟨by decide, ?_⟩
  exact (claim_C9_unmapped_type_defaults_to_text
    ⟨none, "decimal", "price"⟩ "a" "p" (by decide)).1

open ProtoToSql in
/-- **C6, counterexample.** Two distinct messages (`Foo` and `FOO`) in
the same source produce the same table name, because naming lower-cases
the message name: the claim as stated is false. -/
theorem claim_C6_counterexample :
    ("Foo" : String) ≠ "FOO" ∧
    tableNameFor "widget" "Foo" = tableNameFor "widget" "FOO" := by
  exact ⟨by decide, rfl⟩

open ProtoToSql in
/-- **C6, amended.** Two messages of one source whose *lower-cased*
names differ always produce distinct table names. -/
theorem claim_C6_amended_distinct_lowercase_names
    (base m1 m2 : String) (h : pyLower m1 ≠ pyLower m2) :
    tableNameFor base m1 ≠ tableNameFor base m2 := by
  unfold tableNameFor
  by_cases h1 : pyLower m1 = "root" <;> by_cases h2 : pyLower m2 = "root"
  · exact absurd (h1.trans h2.symm) h
  · rw [if_pos h1, if_neg h2]
    intro he
    have hlen := congrArg (fun s => s.data.length) he
    simp only [String.data_append, List.length_append, List.length_cons,
      List.length_nil] at hlen
    omega
  · rw [if_neg h1, if_pos h2]
    intro he
    have hlen := congrArg (fun s => s.data.length) he
    simp only [String.data_append, List.length_append, List.length_cons,
      List.length_nil] at hlen
    omega
  · rw [if_neg h1, if_neg h2]
    intro he
    have hdata := congrArg String.data he
    simp only [String.data_append] at hdata
    exact h (String.ext (List.append_cancel_left hdata))

open ProtoToSql in
/-- Witness for the amended C6 at messages `Foo` and `Bar`. -/
theorem claim_C6_amended_distinct_lowercase_names_witness :
    pyLower "Foo" ≠ pyLower "Bar" ∧
    tableNameFor "widget" "Foo" ≠ tableNameFor "widget" "Bar" := by
  refine ⟨by decide, ?_⟩
  exact claim_C6_amended_distinct_lowercase_names "widget" "Foo" "Bar"
    (by decide)

open ProtoToSql in
/-- **C4.** (a) For a declared table equal to its current counterpart
(same column list, same foreign-key set), `_alter_table_statements`
emits nothing; (b) when every declared table has an equal same-named
current counterpart, the whole migration is empty — so a re-run after
the changes are reflected in the current model yields no statements. -/
theorem claim_C4_equal_tables_emit_nothing :
    (∀ (σ : List String → List String), (∀ l, List.Perm (σ l) l) →
      ∀ c t : Table, t.columns = c.columns →
      (∀ fk, fk ∈ t.foreign_keys ↔ fk ∈ c.foreign_keys) →
      alter_table_statements σ c t = []) ∧
    (∀ (σ : List String → List String), (∀ l, List.Perm (σ l) l) →
      ∀ new cur : Dict Table,
      (∀ p ∈ new, ∃ c, dictGet p.1 cur = some c ∧ p.2.columns = c.columns ∧
        (∀ fk, fk ∈ p.2.foreign_keys ↔ fk ∈ c.foreign_keys)) →
      generate_migration σ new cur = []) := by
  refine ⟨fun σ hσ c t hcols hfks => alter_eq_nil_of_eq hσ hcols hfks, ?_⟩
  intro σ hσ new cur hall
  apply List.eq_nil_iff_forall_not_mem.mpr
  intro s hs
  rcases mem_generate_migration hs with ⟨p, hp, hcase⟩
  rcases hall p hp with ⟨c, hc, hcols, hfks⟩
  rcases hcase with ⟨hnone, _⟩ | ⟨c2, hc2, hsa⟩
  · rw [hc] at hnone
    cases hnone
  · rw [hc] at hc2
    rw [← Option.some.inj hc2] at hsa
    rw [alter_eq_nil_of_eq hσ hcols hfks] at hsa
    cases hsa

open ProtoToSql in
/-- Witness for C4 at a one-table model equal to its current
counterpart. -/
theorem claim_C4_equal_tables_emit_nothing_witness :
    dictGet "t"
        ([("t", ⟨"t", [⟨"c", "TEXT", true, false⟩], ["FK"]⟩)] :
          Dict Table) =
      some ⟨"t", [⟨"c", "TEXT", true, false⟩], ["FK"]⟩ ∧
    generate_migration (fun l => l)
      [("t", ⟨"t", [⟨"c", "TEXT", true, false⟩], ["FK"]⟩)]
      [("t", ⟨"t", [⟨"c", "TEXT", true, false⟩], ["FK"]⟩)] = [] := by
  refine ⟨by decide, ?_⟩
  apply claim_C4_equal_tables_emit_nothing.2 (fun l => l)
    (fun l => List.Perm.refl l)
  intro p hp
  rcases List.mem_singleton.mp hp with rfl
  exact ⟨⟨"t", [⟨"c", "TEXT", true, false⟩], ["FK"]⟩, rfl, rfl,
    fun fk => Iff.rfl⟩

open ProtoToSql in
/-- **C3, counterexample.** With two new foreign keys on one table, two
legitimate set-iteration orders (both permutations of the set
`new_fks - current_fks`) give byte-different statement sequences — the
generated constraint-name suffixes attach to different keys.  CPython's
string-set iteration order is seeded per process, so two runs on
identical inputs may take either order: reconcile is not byte-for-byte
deterministic as claimed. -/
theorem claim_C3_counterexample :
    List.Perm (List.reverse ["FKA", "FKB"]) ["FKA", "FKB"] ∧
    generate_migration (fun l => l)
        [("t", ⟨"t", [], ["FKA", "FKB"]⟩)] [("t", ⟨"t", [], []⟩)] ≠
      generate_migration (fun l => List.reverse l)
        [("t", ⟨"t", [], ["FKA", "FKB"]⟩)] [("t", ⟨"t", [], []⟩)] :=
  ⟨by decide, by decide⟩

open ProtoToSql in
/-- **C3, amended.** Reconcile is deterministic — identical inputs give
byte-identical output for every pair of legitimate set-iteration
orders — whenever each declared table has at most one foreign key absent
from its current counterpart.  (Converter-produced tables carry at most
one foreign key, so the program's own runs are deterministic.) -/
theorem claim_C3_amended_deterministic_when_one_new_fk
    (σ1 σ2 : List String → List String)
    (h1 : ∀ l, List.Perm (σ1 l) l) (h2 : ∀ l, List.Perm (σ2 l) l)
    (new cur : Dict Table)
    (hfk : ∀ p ∈ new, ∀ c, dictGet p.1 cur = some c →
      (fkSetDiff p.2.foreign_keys c.foreign_keys).length ≤ 1) :
    generate_migration σ1 new cur = generate_migration σ2 new cur := by
  unfold generate_migration
  apply foldl_append_congr
  intro p hp
  cases hget : dictGet p.1 cur with
  | none => rfl
  | some c =>
    have hlen := hfk p hp c hget
    show alter_table_statements σ1 c p.2 = alter_table_statements σ2 c p.2
    unfold alter_table_statements
    rw [perm_fix_of_short h1 hlen, perm_fix_of_short h2 hlen]

open ProtoToSql in
/-- Witness for the amended C3: one new foreign key, identity order
versus reversed order. -/
theorem claim_C3_amended_deterministic_when_one_new_fk_witness :
    (fkSetDiff ["FKA"] []).length ≤ 1 ∧
    generate_migration (fun l => l)
        [("t", ⟨"t", [], ["FKA"]⟩)] [("t", ⟨"t", [], []⟩)] =
      generate_migration (fun l => List.reverse l)
        [("t", ⟨"t", [], ["FKA"]⟩)] [("t", ⟨"t", [], []⟩)] := by
  refine ⟨by decide, ?_⟩
  apply claim_C3_amended_deterministic_when_one_new_fk
    (fun l => l) (fun l => List.reverse l)
    (fun l => List.Perm.refl l) (fun l => List.reverse_perm l)
  intro p hp c hc
  rcases List.mem_singleton.mp hp with rfl
  rw [← Option.some.inj hc]
  decide

open ProtoToSql in
/-- **C10.** The migration is a function only of the declared tables and
their same-named current counterparts: two current models that agree on
every declared name produce identical output, so current-only tables
contribute no statements and are left untouched. -/
theorem claim_C10_current_only_tables_untouched
    (σ : List String → List String) (new cur1 cur2 : Dict Table)
    (h : ∀ p ∈ new, dictGet p.1 cur1 = dictGet p.1 cur2) :
    generate_migration σ new cur1 = generate_migration σ new cur2 := by
  unfold generate_migration
  apply foldl_append_congr
  intro p hp
  rw [h p hp]

open ProtoToSql in
/-- Witness for C10: a current-only table `b` changes nothing. -/
theorem claim_C10_current_only_tables_untouched_witness :
    (∀ p ∈ ([("a", ⟨"a", [], []⟩)] : Dict Table),
      dictGet p.1 ([("b", ⟨"b", [], []⟩)] : Dict Table) =
        dictGet p.1 ([] : Dict Table)) ∧
    generate_migration (fun l => l) [("a", ⟨"a", [], []⟩)]
        [("b", ⟨"b", [], []⟩)] =
      generate_migration (fun l => l) [("a", ⟨"a", [], []⟩)] [] := by
  refine ⟨by decide, ?_⟩
  exact claim_C10_current_only_tables_untouched (fun l => l)
    [("a", ⟨"a", [], []⟩)] [("b", ⟨"b", [], []⟩)] [] (by decide)

open ProtoToSql in
/-- **C5 fails on the code.** For the spec's own example (source
`widget`, root message with `repeated string tags`, empty current
model), the child table is inserted into the table dict *before* its
parent, so the migration emits the child's `ADD CONSTRAINT ... REFERENCES
widget(id)` at index 1, *before* `CREATE TABLE widget` at index 2:
executed in order, the constraint references a table that does not yet
exist. -/
theorem claim_C5_add_constraint_precedes_parent_create :
    generate_migration (fun l => l)
      (parse_proto_file "widget"
        [⟨"Root", [⟨some .repeated, "string", "tags"⟩]⟩]) []
    = ["\n            CREATE TABLE widget_tags (\n                id SERIAL NOT NULL PRIMARY KEY,parent_id BIGINT NOT NULL,value TEXT NOT NULL\n            );\n            ",
       "ALTER TABLE widget_tags ADD CONSTRAINT fk_widget_tags FOREIGN KEY (parent_id) REFERENCES widget(id);",
       "\n            CREATE TABLE widget (\n                id SERIAL NOT NULL PRIMARY KEY\n            );\n            "] := rfl

open ProtoToSql in
/-- **C7, counterexample.** In the modelled `main` loop a failing first
file stops the run: of two files only the first is processed, and the
loop propagates the error instead of continuing with the second. -/
theorem claim_C7_counterexample :
    processedCount [Except.error "boom", Except.ok (some "m")] = 1 ∧
    ([Except.error "boom", Except.ok (some "m")] :
      List (Except String (Option String))).length = 2 ∧
    mainLoop [Except.error "boom", Except.ok (some "m")] =
      Except.error "boom" :=
  ⟨rfl, rfl, rfl⟩

open ProtoToSql in
/-- **C7, amended.** A failure while processing one source file aborts
the whole run: with any prefix of successfully processed files, the
failing file is the last one processed (none of the files after it are
translated, diffed or applied) and the loop surfaces the error. -/
theorem claim_C7_amended_failure_aborts_run
    (pre post : List (Except String (Option String))) (e : String)
    (hpre : ∀ f ∈ pre, ∃ r, f = Except.ok r) :
    processedCount (pre ++ Except.error e :: post) = pre.length + 1 ∧
    mainLoop (pre ++ Except.error e :: post) = Except.error e := by
  induction pre with
  | nil => exact ⟨rfl, rfl⟩
  | cons f rest ih =>
    rcases hpre f (List.mem_cons_self _ _) with ⟨r, hr⟩
    subst hr
    have ih2 := ih (fun g hg => hpre g (List.mem_cons_of_mem _ hg))
    constructor
    · show 1 + processedCount (rest ++ Except.error e :: post) =
        (Except.ok r :: rest).length + 1
      rw [ih2.1]
      simp only [List.length_cons]
      omega
    · simp only [List.cons_append, mainLoop, List.append_eq]
      rw [ih2.2]

open ProtoToSql in
/-- Witness for the amended C7: one successful file, then a failure,
then one more file — two of the three files are processed. -/
theorem claim_C7_amended_failure_aborts_run_witness :
    (∀ f ∈ ([Except.ok none] : List (Except String (Option String))),
      ∃ r, f = Except.ok r) ∧
    processedCount ([Except.ok none] ++
      Except.error "boom" :: [Except.ok (some "x")]) = 2 := by
  refine ⟨fun f hf => ⟨none, by simpa using hf⟩, ?_⟩
  exact (claim_C7_amended_failure_aborts_run [Except.ok none]
    [Except.ok (some "x")] "boom"
    (fun f hf => ⟨none, by simpa using hf⟩)).1
